import Mathlib

/-!
Verification of the gap-coordinate algebra, alignment-block store and
alignment reconstruction of the EnsemblLite repository.

The repository ships the test-suite of its core module
(`tests/test_aligndb.py`) but the module `ensembl_lite._aligndb` itself
(together with `ensembl_lite._convert` and `ensembl_lite._genomedb`) is not
part of the source tree here; the definitions below therefore model those
missing parts from the specification (each such definition carries a doc
comment starting with `Modelled from the spec:`).  The one source file that
is present, `src/ensembl_cli/download.py`, is embedded at the end of the
definition section.
-/

set_option maxHeartbeats 1000000

namespace EnsemblLite

/-- Modelled from the spec: the error kinds raised by the missing Python
modules (`NotImplemented` for unsupported slices/indices, `ValueError` for
bad queries / unknown species) and `NameError` for resolution of an
undefined global name (Python semantics, used for `ensembl_cli.download`). -/
inductive PyErr where
  | notImplemented
  | valueError
  | nameError
deriving DecidableEq, Repr

/-- Modelled from the spec: a GapPositions value wraps a gap-span array
(pairs `(gap_insertion_index, gap_length)`, a span `(j, L)` inserting `L`
gap characters before ungapped residue `j`) together with the length of the
ungapped sequence.  (Missing source: class `GapPositions` in
`ensembl_lite._aligndb`.) -/
structure GapPositions where
  gaps : List (Nat × Nat)
  seq_length : Nat
deriving DecidableEq, Repr

/-- Total number of gap characters described by a gap-span list. -/
def gapSum (gaps : List (Nat × Nat)) : Nat := (gaps.map Prod.snd).sum

/-- Modelled from the spec: `len(gp)` is the aligned length,
`seq_length + sum(gap_lengths)`. -/
def GapPositions.len (gp : GapPositions) : Nat := gp.seq_length + gapSum gp.gaps

/-- The spec's invariants for a gap-span list whose insertion indices lie in
`[pos, len]`: strictly increasing insertion indices, positive lengths. -/
def WfFrom (gaps : List (Nat × Nat)) (pos len : Nat) : Prop :=
  gaps.Pairwise (fun g h => g.1 < h.1) ∧ ∀ g ∈ gaps, pos ≤ g.1 ∧ g.1 ≤ len ∧ 0 < g.2

instance (gaps : List (Nat × Nat)) (pos len : Nat) : Decidable (WfFrom gaps pos len) := by
  unfold WfFrom; infer_instance

/-- Modelled from the spec: the invariants of a GapPositions value
(`gap_insertion_index ∈ [0, seq_length]`, spans disjoint and ordered,
positive lengths). -/
def GapPositions.Wf (gp : GapPositions) : Prop := WfFrom gp.gaps 0 gp.seq_length

instance (gp : GapPositions) : Decidable gp.Wf := by
  unfold GapPositions.Wf; infer_instance

/-- Modelled from the spec: `from_seq_to_align_index(i)` returns
`i + Σ gap_length[k] over spans with gap_insertion_index[k] ≤ i`. -/
def GapPositions.from_seq_to_align_index (gp : GapPositions) (i : Nat) : Nat :=
  i + gapSum (gp.gaps.filter (fun g => g.1 ≤ i))

/-- Modelled from the spec: the walk of the cumulative gap-length prefix
behind `from_align_to_seq_index`: if `a` lies strictly within the aligned
run of a gap span the answer is that span's insertion index, otherwise it is
`a` minus the gap length consumed strictly before `a`. -/
def a2sGo : List (Nat × Nat) → Nat → Nat → Nat
  | [], cum, a => a - cum
  | (j, L) :: rest, cum, a =>
      if a < j + cum then a - cum
      else if a < j + cum + L then j
      else a2sGo rest (cum + L) a

/-- Modelled from the spec: `from_align_to_seq_index(a)` fails with
`NotImplemented` if `a < 0`, and otherwise resolves the alignment index `a`
to a sequence index via the cumulative walk. -/
def GapPositions.from_align_to_seq_index (gp : GapPositions) (a : Int) : Except PyErr Nat :=
  if a < 0 then .error .notImplemented else .ok (a2sGo gp.gaps 0 a.toNat)

/-- A Python slice object `slice(start, stop, step)` as passed to
`GapPositions.__getitem__`. -/
structure PySlice where
  start : Option Int
  stop : Option Int
  step : Option Int
deriving DecidableEq, Repr

/-- Modelled from the spec: the spans retained by `slice(start, stop)`:
every original span whose aligned run `[rs, re)` intersects `[s, e)` is
kept, its length clipped to the intersection and its insertion index rebased
relative to `seqStart` (possibly becoming 0). -/
def sliceGaps : List (Nat × Nat) → Nat → Nat → Nat → Nat → List (Nat × Nat)
  | [], _, _, _, _ => []
  | (j, L) :: rest, cum, s, e, seqStart =>
      if max (j + cum) s < min (j + cum + L) e then
        (j - seqStart, min (j + cum + L) e - max (j + cum) s) ::
          sliceGaps rest (cum + L) s e seqStart
      else sliceGaps rest (cum + L) s e seqStart

/-- Modelled from the spec: `slice(start, stop)` computes
`seq_start = from_align_to_seq_index(start)`,
`seq_stop = from_align_to_seq_index(stop)`, takes
`seq_stop - seq_start` as the new `seq_length` and clips/rebases the
overlapping spans. -/
def sliceCore (gp : GapPositions) (s e : Nat) : GapPositions :=
  ⟨sliceGaps gp.gaps 0 s e (a2sGo gp.gaps 0 s), a2sGo gp.gaps 0 e - a2sGo gp.gaps 0 s⟩

/-- Modelled from the spec: `GapPositions.__getitem__` fails with
`NotImplemented` on any slice with a non-unit (hence also negative) step, a
negative start or stop, or stop before start; otherwise it slices, with a
missing start defaulting to 0 and a missing stop to the aligned length. -/
def GapPositions.getitem (gp : GapPositions) (sl : PySlice) : Except PyErr GapPositions :=
  if sl.step ≠ none ∧ sl.step ≠ some 1 then .error .notImplemented
  else if sl.start.getD 0 < 0 then .error .notImplemented
  else if sl.stop.getD 0 < 0 then .error .notImplemented
  else
    let s := (sl.start.getD 0).toNat
    let e := match sl.stop with
      | none => gp.len
      | some v => min v.toNat gp.len
    if e < s then .error .notImplemented
    else .ok (sliceCore gp s e)

/-- The column mask of a gapped string: `true` marks a residue, `false`
marks a gap character. -/
def seqMask (data : List Char) : List Bool := data.map (fun c => decide (c ≠ '-'))

/-- Prepend one gap character before residue `n` to a gap-span list,
merging with an existing span at insertion index `n`. -/
def mergeGapAt (n : Nat) : List (Nat × Nat) → List (Nat × Nat)
  | (j, L) :: t => if j = n then (n, L + 1) :: t else (n, 1) :: (j, L) :: t
  | [] => [(n, 1)]

/-- Extract the gap spans of a column mask: each maximal run of gap columns
becomes the span `(number of residues before the run, run length)`; `n`
counts the residues already consumed. -/
def gapRuns : List Bool → Nat → List (Nat × Nat)
  | [], _ => []
  | b :: rest, n => if b then gapRuns rest (n + 1) else mergeGapAt n (gapRuns rest n)

/-- Modelled from the spec: `seq_to_gap_coords` (module
`ensembl_lite._convert`) splits a gapped sequence into the gap-span array of
its maximal gap runs and the ungapped sequence. -/
def seq_to_gap_coords (data : List Char) : List (Nat × Nat) × List Char :=
  (gapRuns (seqMask data) 0, data.filter (fun c => decide (c ≠ '-')))

/-- The GapPositions value the tests build from a gapped string:
`GapPositions(gaps, seq_length)` with both components taken from
`seq_to_gap_coords`. -/
def GapPositions.fromGapped (data : List Char) : GapPositions :=
  ⟨(seq_to_gap_coords data).1, (seq_to_gap_coords data).2.length⟩

/-- Expand a gap-span list (insertion indices in `[pos, len]`) back into the
column mask of the gapped sequence of residues `pos..len-1`. -/
def decodeFrom : List (Nat × Nat) → Nat → Nat → List Bool
  | [], pos, len => List.replicate (len - pos) true
  | (j, L) :: rest, pos, len =>
      List.replicate (j - pos) true ++ List.replicate L false ++ decodeFrom rest j len

/-- The column mask described by a GapPositions value. -/
def GapPositions.cols (gp : GapPositions) : List Bool := decodeFrom gp.gaps 0 gp.seq_length

/-- Position of the first residue column at position `≥ p`, walking a
column-mask suffix. -/
def nextNonGapGo : List Bool → Nat → Option Nat
  | [], _ => none
  | true :: _, p => some p
  | false :: rest, p => nextNonGapGo rest (p + 1)

/-- Position of the nearest residue column at alignment position `≥ a`
in a column mask, if any. -/
def nextNonGap (cols : List Bool) (a : Nat) : Option Nat := nextNonGapGo (cols.drop a) a

/-- The sequence index of the residue sitting at column `p`: the number of
residue columns strictly before `p`. -/
def residueIndexAt (cols : List Bool) (p : Nat) : Nat := (cols.take p).count true

/-- Modelled from the spec: one AlignDb row, one row per
(alignment block, participating sequence).  `start`/`stop` are half-open
plus-strand genome coordinates.  (Missing source: class `AlignRecord` in
`ensembl_lite._aligndb`.) -/
structure AlignRecord where
  source : String
  block_id : String
  species : String
  seqid : String
  start : Int
  stop : Int
  strand : Char
  gap_spans : List (Nat × Nat)
deriving DecidableEq, Repr

/-- Modelled from the spec: the persistent table of AlignRecord rows,
abstracted as the multiset (here: list) of stored rows.  (Missing source:
class `AlignDb` in `ensembl_lite._aligndb`.) -/
structure AlignDb where
  records : List AlignRecord
deriving DecidableEq, Repr

/-- Modelled from the spec: bulk, all-or-nothing insertion of records. -/
def AlignDb.add_records (db : AlignDb) (records : List AlignRecord) : AlignDb :=
  ⟨db.records ++ records⟩

/-- Modelled from the spec: the overlap predicate of
`get_records_matching`: the record's `[start, stop)` interval matches iff
`record.stop > start` and `record.start < stop`, a missing `start` acting as
`-∞` and a missing `stop` as `+∞`. -/
def overlapsQuery (r : AlignRecord) (start stop : Option Int) : Bool :=
  (match start with
   | none => true
   | some a => decide (a < r.stop)) &&
  (match stop with
   | none => true
   | some b => decide (r.start < b))

/-- Does a record match the equality part of a `get_records_matching`
query?  A missing species or seqid matches everything. -/
def matchesKey (r : AlignRecord) (species seqid : Option String) : Bool :=
  (match species with
   | none => true
   | some sp => decide (r.species = sp)) &&
  (match seqid with
   | none => true
   | some sq => decide (r.seqid = sq))

/-- Modelled from the spec: `get_records_matching(species?, seqid?, start?,
stop?)` requires at least one of `species`/`seqid` and returns the stored
records matching the provided equality fields whose interval overlaps the
`[start, stop)` query window. -/
def AlignDb.get_records_matching (db : AlignDb) (species seqid : Option String)
    (start stop : Option Int) : Except PyErr (List AlignRecord) :=
  if species = none ∧ seqid = none then .error .valueError
  else .ok (db.records.filter (fun r => matchesKey r species seqid && overlapsQuery r start stop))

/-- Modelled from the spec: DNA complement used by `reverse_complement`. -/
def complement : Char → Char
  | 'A' => 'T'
  | 'T' => 'A'
  | 'C' => 'G'
  | 'G' => 'C'
  | c => c

/-- Modelled from the spec: reverse complement of a nucleotide string. -/
def reverse_complement (s : List Char) : List Char := (s.map complement).reverse

/-- Modelled from the spec: a genome: a compressed sequence store (here the
association list seqid -> stored plus-strand sequence) together with the
species name.  (Missing source: `Genome`/`CompressedGenomeSeqsDb` in
`ensembl_lite._genomedb`; the feature store is outside the claims.) -/
structure Genome where
  seqs : List (String × List Char)
  species : String
deriving DecidableEq, Repr

/-- Modelled from the spec: `get_substring(seqid, start, stop, strand)`
returns exactly `stop - start` residues of the plus-strand sequence,
reverse-complemented when `strand` is minus. -/
def Genome.get_substring (g : Genome) (seqid : String) (start stop : Nat) (strand : Char) :
    List Char :=
  let seq := ((g.seqs.find? (fun p => p.1 = seqid)).map Prod.snd).getD []
  let sub := (seq.drop start).take (stop - start)
  if strand = '-' then reverse_complement sub else sub

/-- Modelled from the spec: re-insert the gaps of a (sorted) gap-span list
into an ungapped sequence, using `-` as the gap character; `pos` counts the
residues already emitted. -/
def insertGapsGo : List (Nat × Nat) → Nat → List Char → List Char
  | [], _, seq => seq
  | (j, L) :: rest, pos, seq =>
      seq.take (j - pos) ++ List.replicate L '-' ++ insertGapsGo rest j (seq.drop (j - pos))

/-- Keep the first occurrence of every element. -/
def dedupFirst : List String → List String
  | [] => []
  | x :: rest => x :: (dedupFirst rest).filter (fun y => y ≠ x)

/-- One output row of a materialised alignment: the row name (the seqid)
paired with the gapped sub-sequence. -/
abbrev AlnRow := String × List Char

/-- Modelled from the spec: reconstruction of one alignment block
(§4.E steps 2a-2f): find the reference record, intersect its interval with
the query window, convert to in-block ungapped offsets (flipping when the
reference strand is minus), map those to alignment columns via the
reference gap spans, and for every participating record slice its gap
spans, fetch the genome substring (reverse-complemented for minus-strand
records) and re-insert the sliced gaps.  Returns `none` (block skipped)
when the reference record is missing. -/
def buildBlock (db : AlignDb) (genomes : List (String × Genome))
    (ref_species seqid : String) (ref_start ref_end : Option Int) (bid : String) :
    Option (List AlnRow) :=
  let recs := db.records.filter (fun r => r.block_id = bid)
  match recs.find? (fun r => r.species = ref_species ∧ r.seqid = seqid) with
  | none => none
  | some refRec =>
      let qStart := max refRec.start (ref_start.getD refRec.start)
      let qEnd := min refRec.stop (ref_end.getD refRec.stop)
      let refLen := (refRec.stop - refRec.start).toNat
      let b0 := (qStart - refRec.start).toNat
      let e0 := (qEnd - refRec.start).toNat
      let b1 := if refRec.strand = '-' then refLen - e0 else b0
      let e1 := if refRec.strand = '-' then refLen - b0 else e0
      let refGp : GapPositions := ⟨refRec.gap_spans, refLen⟩
      let alnBegin := refGp.from_seq_to_align_index b1
      let alnEnd := refGp.from_seq_to_align_index e1
      some (recs.map (fun rec =>
        let recLen := (rec.stop - rec.start).toNat
        let gp : GapPositions := ⟨rec.gap_spans, recLen⟩
        let gp' := sliceCore gp alnBegin alnEnd
        let sb := a2sGo gp.gaps 0 alnBegin
        let se := a2sGo gp.gaps 0 alnEnd
        let gStart : Int := if rec.strand = '-' then rec.stop - se else rec.start + sb
        let gStop : Int := if rec.strand = '-' then rec.stop - sb else rec.start + se
        let genome := (((genomes.find? (fun p => p.1 = rec.species)).map Prod.snd).getD
          ⟨[], rec.species⟩)
        let bytes := genome.get_substring rec.seqid gStart.toNat gStop.toNat rec.strand
        (rec.seqid, insertGapsGo gp'.gaps 0 bytes)))

/-- Modelled from the spec: `get_alignment(align_db, genomes, ref_species,
seqid, ref_start?, ref_end?)` fails with `UnknownSpecies` (a `ValueError`)
when `ref_species` is absent from `genomes`, locates the blocks overlapping
the reference window, groups the matching records by `block_id` and
reconstructs one alignment per block (skipping blocks whose reference
record is missing).  Feature projection and masking are outside the
claims and are not modelled. -/
def get_alignment (align_db : AlignDb) (genomes : List (String × Genome))
    (ref_species seqid : String) (ref_start ref_end : Option Int) :
    Except PyErr (List (List AlnRow)) :=
  if (genomes.find? (fun p => p.1 = ref_species)) = none then .error .valueError
  else
    match align_db.get_records_matching (some ref_species) (some seqid) ref_start ref_end with
    | .error e => .error e
    | .ok blocks =>
        .ok ((dedupFirst (blocks.map (fun r => r.block_id))).filterMap
          (buildBlock align_db genomes ref_species seqid ref_start ref_end))

/-- Modelled from the spec: GapPositions are immutable values and slicing
returns a new instance.  The object store is made explicit as a heap of
GapPositions instances; `gp[sl]` on the instance at heap index `i` reads
that instance, allocates the sliced copy at a fresh index and leaves the
heap entry `i` untouched. -/
def sliceOnHeap (heap : List GapPositions) (i : Nat) (sl : PySlice) :
    List GapPositions × Except PyErr Nat :=
  match heap.get? i with
  | none => (heap, .error .valueError)
  | some gp =>
      match gp.getitem sl with
      | .error e => (heap, .error e)
      | .ok gp' => (heap ++ [gp'], .ok heap.length)

/-- The global names bound at module level in `src/ensembl_cli/download.py`
(its imports and its own definitions), in source order. -/
def downloadModuleGlobals : List String :=
  ["annotations", "os", "click", "open_", "download_data", "listdir",
   "EnsemblDbName", "Species", "ENSEMBLDBRC", "makedirs", "read_config",
   "get_download_checkpoint_path", "is_downloaded", "_cfg",
   "valid_seq_file", "download_dbs"]

/-- Python name resolution for a module-level global: an unbound name
raises `NameError`. -/
def resolveGlobal (env : List String) (n : String) : Except PyErr Unit :=
  if n ∈ env then .ok () else .error .nameError

/-- `valid_seq_file(name)` from `src/ensembl_cli/download.py`: its body is
`return _valid_seq.search(name) is not None`, which first resolves the
global `_valid_seq`; the value returned in the bound case is irrelevant
here because `_valid_seq` is bound nowhere in the module. -/
def valid_seq_file (name : String) : Except PyErr Bool := do
  let _ ← resolveGlobal downloadModuleGlobals "_valid_seq"
  pure (name = name)

/-! The canonical three-sequence sample of the test-suite (`small_seqs`),
with the alignment block built from columns `[1, 12)` as in `make_sample`,
in the two storage variants: every genome stored in plus-strand
orientation, and the s2 (mouse) genome stored reverse-complemented with its
record carrying strand `-` and reverse-complement coordinates. -/

/-- Aligned row s1 (human) of the sample alignment. -/
def s1row : List Char := "GTTGAAGTAGTAGAAGTTCCAAATAATGAA".toList

/-- Aligned row s2 (mouse) of the sample alignment. -/
def s2row : List Char := "GTG------GTAGAAGTTCCAAATAATGAA".toList

/-- Aligned row s3 (dog) of the sample alignment. -/
def s3row : List Char := "GCTGAAGTAGTGGAAGTTGCAAAT---GAA".toList

/-- Columns `[s, e)` of an aligned row. -/
def sliceRow (r : List Char) (s e : Nat) : List Char := (r.drop s).take (e - s)

/-- Remove the gap characters of an aligned row. -/
def degap (r : List Char) : List Char := r.filter (fun c => decide (c ≠ '-'))

/-- AlignRecord of s1 for the block over columns `[1, 12)`. -/
def rec1 : AlignRecord :=
  ⟨"blah", "0", "human", "s1", 1, 12, '+', (seq_to_gap_coords (sliceRow s1row 1 12)).1⟩

/-- AlignRecord of s2 when its genome is stored in plus orientation: the
block's ungapped s2 segment `TGGTA` sits at `[1, 6)` of the s2 genome. -/
def rec2plus : AlignRecord :=
  ⟨"blah", "0", "mouse", "s2", 1, 6, '+', (seq_to_gap_coords (sliceRow s2row 1 12)).1⟩

/-- AlignRecord of s2 when its genome is stored reverse-complemented: the
segment's reverse complement sits at `[18, 23)` of the stored genome and
the record carries strand `-`. -/
def rec2minus : AlignRecord :=
  ⟨"blah", "0", "mouse", "s2", 18, 23, '-', (seq_to_gap_coords (sliceRow s2row 1 12)).1⟩

/-- AlignRecord of s3 for the block over columns `[1, 12)`. -/
def rec3 : AlignRecord :=
  ⟨"blah", "0", "dog", "s3", 1, 12, '+', (seq_to_gap_coords (sliceRow s3row 1 12)).1⟩

/-- The sample genomes, every sequence stored in plus orientation. -/
def sampleGenomesPlus : List (String × Genome) :=
  [("human", ⟨[("s1", degap s1row)], "human"⟩),
   ("mouse", ⟨[("s2", degap s2row)], "mouse"⟩),
   ("dog", ⟨[("s3", degap s3row)], "dog"⟩)]

/-- The sample genomes with the mouse genome stored reverse-complemented. -/
def sampleGenomesMinus : List (String × Genome) :=
  [("human", ⟨[("s1", degap s1row)], "human"⟩),
   ("mouse", ⟨[("s2", reverse_complement (degap s2row))], "mouse"⟩),
   ("dog", ⟨[("s3", degap s3row)], "dog"⟩)]

/-- The sample AlignDb for the plus-orientation storage variant. -/
def sampleDbPlus : AlignDb := ⟨[rec1, rec2plus, rec3]⟩

/-- The sample AlignDb for the variant with the mouse genome stored
reverse-complemented. -/
def sampleDbMinus : AlignDb := ⟨[rec1, rec2minus, rec3]⟩

/-! ### Generic list lemmas -/

theorem count_true_add_count_false (l : List Bool) :
    l.count true + l.count false = l.length := by
  induction l with
  | nil => rfl
  | cons b rest ih => cases b <;> simp [List.count_cons] <;> omega

theorem gapSum_cons (g : Nat × Nat) (l : List (Nat × Nat)) :
    gapSum (g :: l) = g.2 + gapSum l := by
  simp [gapSum]

theorem gapSum_filter_le (p : Nat × Nat → Bool) (l : List (Nat × Nat)) :
    gapSum (l.filter p) ≤ gapSum l := by
  induction l with
  | nil => simp
  | cons g rest ih =>
      by_cases h : p g <;> simp [List.filter_cons, h, gapSum_cons] <;> omega

theorem WfFrom_cons {j L pos len : Nat} {rest : List (Nat × Nat)}
    (h : WfFrom ((j, L) :: rest) pos len) :
    WfFrom rest j len ∧ pos ≤ j ∧ j ≤ len ∧ 0 < L := by
  obtain ⟨hp, hm⟩ := h
  rw [List.pairwise_cons] at hp
  obtain ⟨hj1, hj2, hj3⟩ := hm (j, L) (by simp)
  refine ⟨⟨hp.2, ?_⟩, hj1, hj2, hj3⟩
  intro g hg
  obtain ⟨_, h2, h3⟩ := hm g (by simp [hg])
  exact ⟨le_of_lt (hp.1 g hg), h2, h3⟩

theorem count_take_tri (t f n : Nat) (tail : List Bool) :
    ((List.replicate t true ++ List.replicate f false ++ tail).take n).count true =
      min n t + (tail.take (n - t - f)).count true := by
  rw [List.append_assoc, List.take_append_eq_append_take, List.take_append_eq_append_take]
  simp [List.take_replicate, List.count_append, List.count_replicate]

/-! ### Correctness of the cumulative walk against the column mask -/

theorem a2sGo_decode (gaps : List (Nat × Nat)) :
    ∀ (pos len cum a : Nat), WfFrom gaps pos len → pos + cum ≤ a →
      a ≤ len + cum + gapSum gaps →
      a2sGo gaps cum a = pos + ((decodeFrom gaps pos len).take (a - pos - cum)).count true := by
  induction gaps with
  | nil =>
      intro pos len cum a _ h1 h2
      simp only [a2sGo, decodeFrom, gapSum, List.map_nil, List.sum_nil] at *
      rw [List.take_replicate]
      simp [List.count_replicate]
      omega
  | cons g rest ih =>
      obtain ⟨j, L⟩ := g
      intro pos len cum a hw h1 h2
      obtain ⟨hrest, hpj, hjl, hLpos⟩ := WfFrom_cons hw
      rw [gapSum_cons] at h2
      simp only [a2sGo, decodeFrom]
      rw [count_take_tri]
      by_cases hc1 : a < j + cum
      · rw [if_pos hc1]
        have hz : a - pos - cum - (j - pos) - L = 0 := by omega
        rw [hz]
        simp
        omega
      · rw [if_neg hc1]
        by_cases hc2 : a < j + cum + L
        · rw [if_pos hc2]
          have hz : a - pos - cum - (j - pos) - L = 0 := by omega
          rw [hz]
          simp
          omega
        · rw [if_neg hc2]
          rw [ih j len (cum + L) a hrest (by omega) (by omega)]
          have hz : a - pos - cum - (j - pos) - L = a - j - (cum + L) := by omega
          rw [hz]
          omega

theorem count_take_s2a (gaps : List (Nat × Nat)) :
    ∀ (pos len i : Nat), WfFrom gaps pos len → pos ≤ i → i ≤ len →
      ((decodeFrom gaps pos len).take
        ((i - pos) + gapSum (gaps.filter (fun g => g.1 ≤ i)))).count true = i - pos := by
  induction gaps with
  | nil =>
      intro pos len i _ h1 h2
      simp only [decodeFrom, List.filter_nil, gapSum, List.map_nil, List.sum_nil]
      rw [List.take_replicate]
      simp [List.count_replicate]
      omega
  | cons g rest ih =>
      obtain ⟨j, L⟩ := g
      intro pos len i hw h1 h2
      obtain ⟨hrest, hpj, hjl, hLpos⟩ := WfFrom_cons hw
      simp only [decodeFrom]
      rw [count_take_tri]
      by_cases hj : j ≤ i
      · have hfc : ((j, L) :: rest).filter (fun g => g.1 ≤ i) =
            (j, L) :: rest.filter (fun g => g.1 ≤ i) := by
          simp [List.filter_cons, hj]
        rw [hfc, gapSum_cons]
        have hz : (i - pos) + (L + gapSum (rest.filter (fun g => g.1 ≤ i))) - (j - pos) - L =
            (i - j) + gapSum (rest.filter (fun g => g.1 ≤ i)) := by omega
        rw [hz, ih j len i hrest hj h2]
        omega
      · have hfc : ((j, L) :: rest).filter (fun g => g.1 ≤ i) = [] := by
          rw [List.filter_eq_nil_iff]
          intro g hg
          rcases List.mem_cons.mp hg with h | h
          · subst h; simpa using hj
          · have := hw.1
            rw [List.pairwise_cons] at this
            have hjg := this.1 g h
            simp only [decide_eq_true_eq]
            omega
        rw [hfc]
        have hz : (i - pos) + gapSum ([] : List (Nat × Nat)) - (j - pos) - L = 0 := by
          simp [gapSum]; omega
        rw [hz]
        simp [gapSum]
        omega

theorem decode_count (gaps : List (Nat × Nat)) :
    ∀ (pos len : Nat), WfFrom gaps pos len → pos ≤ len →
      (decodeFrom gaps pos len).count true = len - pos := by
  induction gaps with
  | nil => intro pos len _ _; simp [decodeFrom, List.count_replicate]
  | cons g rest ih =>
      obtain ⟨j, L⟩ := g
      intro pos len hw hpl
      obtain ⟨hrest, hpj, hjl, _⟩ := WfFrom_cons hw
      simp [decodeFrom, List.count_append, List.count_replicate, ih j len hrest hjl]
      omega

/-! ### Properties of the gap-run extraction -/

theorem gapRuns_cons_true (rest : List Bool) (n : Nat) :
    gapRuns (true :: rest) n = gapRuns rest (n + 1) := by
  simp [gapRuns]

theorem gapRuns_cons_false (rest : List Bool) (n : Nat) :
    gapRuns (false :: rest) n = mergeGapAt n (gapRuns rest n) := by
  simp [gapRuns]

theorem count_true_cons_true (rest : List Bool) :
    (true :: rest).count true = rest.count true + 1 := by
  simp

theorem count_true_cons_false (rest : List Bool) :
    (false :: rest).count true = rest.count true := by
  simp

theorem count_false_cons_false (rest : List Bool) :
    (false :: rest).count false = rest.count false + 1 := by
  simp

theorem count_false_cons_true (rest : List Bool) :
    (true :: rest).count false = rest.count false := by
  simp

theorem decodeFrom_nil (pos len : Nat) :
    decodeFrom [] pos len = List.replicate (len - pos) true := rfl

theorem decodeFrom_cons (j L pos len : Nat) (rest : List (Nat × Nat)) :
    decodeFrom ((j, L) :: rest) pos len =
      List.replicate (j - pos) true ++ List.replicate L false ++ decodeFrom rest j len := rfl

theorem gapRuns_mem (m : List Bool) :
    ∀ (n : Nat) (g : Nat × Nat), g ∈ gapRuns m n →
      n ≤ g.1 ∧ g.1 ≤ n + m.count true ∧ 0 < g.2 := by
  induction m with
  | nil => intro n g h; simp [gapRuns] at h
  | cons b rest ih =>
      intro n g hg
      cases b with
      | true =>
          rw [gapRuns_cons_true] at hg
          have := ih (n + 1) g hg
          rw [count_true_cons_true]
          omega
      | false =>
          rw [gapRuns_cons_false] at hg
          rw [count_true_cons_false]
          rcases hr : gapRuns rest n with _ | ⟨⟨j, K⟩, t⟩ <;> rw [hr] at hg
          · simp only [mergeGapAt, List.mem_singleton] at hg
            subst hg
            refine ⟨?_, ?_, ?_⟩ <;> simp
          · simp only [mergeGapAt] at hg
            have hmem := ih n (j, K) (by rw [hr]; exact List.mem_cons_self _ _)
            simp only at hmem
            by_cases hj : j = n
            · rw [if_pos hj] at hg
              rcases List.mem_cons.mp hg with h | h
              · subst h
                simp only
                omega
              · have := ih n g (by rw [hr]; exact List.mem_cons_of_mem _ h)
                omega
            · rw [if_neg hj] at hg
              rcases List.mem_cons.mp hg with h | h
              · subst h
                simp only
                omega
              · have := ih n g (by rw [hr]; exact h)
                omega

theorem gapRuns_pairwise (m : List Bool) :
    ∀ (n : Nat), (gapRuns m n).Pairwise (fun g h => g.1 < h.1) := by
  induction m with
  | nil => intro n; simp [gapRuns]
  | cons b rest ih =>
      intro n
      cases b with
      | true => rw [gapRuns_cons_true]; exact ih (n + 1)
      | false =>
          rw [gapRuns_cons_false]
          rcases hr : gapRuns rest n with _ | ⟨⟨j, K⟩, t⟩
          · simp [mergeGapAt]
          · have hpw := ih n
            rw [hr, List.pairwise_cons] at hpw
            simp only [mergeGapAt]
            by_cases hj : j = n
            · rw [if_pos hj]
              rw [List.pairwise_cons]
              refine ⟨fun g hg => ?_, hpw.2⟩
              have := hpw.1 g hg
              simp only at this ⊢
              omega
            · rw [if_neg hj]
              have hjn : n < j := by
                have := gapRuns_mem rest n (j, K) (by rw [hr]; exact List.mem_cons_self _ _)
                simp only at this
                omega
              rw [List.pairwise_cons]
              refine ⟨fun g hg => ?_, ?_⟩
              · rcases List.mem_cons.mp hg with h | h
                · subst h
                  simpa using hjn
                · have := hpw.1 g h
                  simp only at this ⊢
                  omega
              · rw [List.pairwise_cons]
                exact hpw

theorem gapRuns_gapSum (m : List Bool) :
    ∀ (n : Nat), gapSum (gapRuns m n) = m.count false := by
  induction m with
  | nil => intro n; simp [gapRuns, gapSum]
  | cons b rest ih =>
      intro n
      cases b with
      | true =>
          rw [gapRuns_cons_true, count_false_cons_true]
          exact ih (n + 1)
      | false =>
          rw [gapRuns_cons_false, count_false_cons_false, ← ih n]
          rcases hr : gapRuns rest n with _ | ⟨⟨j, K⟩, t⟩
          · simp [mergeGapAt, gapSum]
          · simp only [mergeGapAt]
            by_cases hj : j = n
            · rw [if_pos hj, gapSum_cons, gapSum_cons]
              simp only
              omega
            · rw [if_neg hj, gapSum_cons, gapSum_cons]
              simp only
              omega

theorem decode_cons_true (gaps : List (Nat × Nat)) (pos len : Nat)
    (hlen : pos < len) (hmem : ∀ g ∈ gaps, pos < g.1) :
    decodeFrom gaps pos len = true :: decodeFrom gaps (pos + 1) len := by
  cases gaps with
  | nil =>
      rw [decodeFrom_nil, decodeFrom_nil]
      rw [show len - pos = (len - (pos + 1)) + 1 by omega]
      simp [List.replicate_succ]
  | cons g rest =>
      obtain ⟨j, K⟩ := g
      have hj : pos < j := hmem (j, K) (List.mem_cons_self _ _)
      rw [decodeFrom_cons, decodeFrom_cons]
      rw [show j - pos = (j - (pos + 1)) + 1 by omega]
      simp [List.replicate_succ]

theorem decode_gapRuns (m : List Bool) :
    ∀ (n : Nat), decodeFrom (gapRuns m n) n (n + m.count true) = m := by
  induction m with
  | nil => intro n; simp [gapRuns, decodeFrom]
  | cons b rest ih =>
      intro n
      cases b with
      | true =>
          rw [gapRuns_cons_true, count_true_cons_true]
          rw [decode_cons_true (gapRuns rest (n + 1)) n (n + (rest.count true + 1))
            (by omega) (fun g hg => by have := gapRuns_mem rest (n + 1) g hg; omega)]
          rw [show n + (rest.count true + 1) = (n + 1) + rest.count true by omega]
          rw [ih (n + 1)]
      | false =>
          rw [gapRuns_cons_false, count_true_cons_false]
          have hD := ih n
          rcases hr : gapRuns rest n with _ | ⟨⟨j, K⟩, t⟩ <;> rw [hr] at hD
          · rw [decodeFrom_nil] at hD
            simp only [mergeGapAt]
            rw [decodeFrom_cons, decodeFrom_nil, Nat.sub_self]
            simp only [List.replicate_zero, List.nil_append, List.replicate_one,
              List.singleton_append]
            rw [hD]
          · simp only [mergeGapAt]
            by_cases hj : j = n
            · rw [if_pos hj]
              rw [hj] at hD
              rw [decodeFrom_cons, Nat.sub_self] at hD ⊢
              simp only [List.replicate_zero, List.nil_append] at hD ⊢
              rw [List.replicate_succ, List.cons_append, hD]
            · rw [if_neg hj]
              rw [decodeFrom_cons, Nat.sub_self]
              simp only [List.replicate_zero, List.nil_append, List.replicate_one,
                List.singleton_append]
              rw [hD]

theorem WfFrom_gapRuns (m : List Bool) : WfFrom (gapRuns m 0) 0 (m.count true) := by
  constructor
  · exact gapRuns_pairwise m 0
  · intro g hg
    have := gapRuns_mem m 0 g hg
    omega

theorem a2s_gapRuns (m : List Bool) (x : Nat) (hx : x ≤ m.length) :
    a2sGo (gapRuns m 0) 0 x = (m.take x).count true := by
  have hw := WfFrom_gapRuns m
  have h2 : x ≤ m.count true + 0 + gapSum (gapRuns m 0) := by
    rw [gapRuns_gapSum m 0]
    have := count_true_add_count_false m
    omega
  have h5 := a2sGo_decode (gapRuns m 0) 0 (m.count true) 0 x hw (by omega) h2
  rw [h5]
  have hA := decode_gapRuns m 0
  simp only [Nat.zero_add] at hA
  rw [hA]
  simp

/-! ### Properties of gap-span slicing -/

theorem sliceGaps_nil (cum s e ss : Nat) : sliceGaps [] cum s e ss = [] := rfl

theorem sliceGaps_cons (j L : Nat) (rest : List (Nat × Nat)) (cum s e ss : Nat) :
    sliceGaps ((j, L) :: rest) cum s e ss =
      if max (j + cum) s < min (j + cum + L) e then
        (j - ss, min (j + cum + L) e - max (j + cum) s) :: sliceGaps rest (cum + L) s e ss
      else sliceGaps rest (cum + L) s e ss := rfl

theorem slice_empty (G : List (Nat × Nat)) :
    ∀ (cum s e ss : Nat), e ≤ s → sliceGaps G cum s e ss = [] := by
  induction G with
  | nil => intro cum s e ss _; rfl
  | cons g rest ih =>
      obtain ⟨j, L⟩ := g
      intro cum s e ss h
      rw [sliceGaps_cons, if_neg (by omega), ih (cum + L) s e ss h]

theorem slice_after (G : List (Nat × Nat)) :
    ∀ (cum s e ss : Nat), (∀ g ∈ G, e ≤ g.1 + cum) → sliceGaps G cum s e ss = [] := by
  induction G with
  | nil => intro cum s e ss _; rfl
  | cons g rest ih =>
      obtain ⟨j, L⟩ := g
      intro cum s e ss h
      have hj : e ≤ j + cum := by
        have := h (j, L) (List.mem_cons_self _ _)
        simpa using this
      rw [sliceGaps_cons, if_neg (by omega)]
      refine ih (cum + L) s e ss (fun g hg => ?_)
      have := h g (List.mem_cons_of_mem _ hg)
      omega

theorem slice_cum0 (G : List (Nat × Nat)) :
    ∀ (c e ss : Nat), sliceGaps G (c + 1) 0 e ss = sliceGaps G c 0 (e - 1) ss := by
  induction G with
  | nil => intro c e ss; rfl
  | cons g rest ih =>
      obtain ⟨j, L⟩ := g
      intro c e ss
      rw [sliceGaps_cons, sliceGaps_cons]
      have hrec : sliceGaps rest (c + 1 + L) 0 e ss = sliceGaps rest (c + L) 0 (e - 1) ss := by
        rw [show c + 1 + L = (c + L) + 1 by omega]
        exact ih (c + L) e ss
      by_cases hc : max (j + (c + 1)) 0 < min (j + (c + 1) + L) e
      · rw [if_pos hc, if_pos (by omega), hrec,
          show min (j + (c + 1) + L) e - max (j + (c + 1)) 0 =
            min (j + c + L) (e - 1) - max (j + c) 0 by omega]
      · rw [if_neg hc, if_neg (by omega), hrec]

theorem slice_cums (G : List (Nat × Nat)) :
    ∀ (c s e ss : Nat), 1 ≤ s →
      sliceGaps G (c + 1) s e ss = sliceGaps G c (s - 1) (e - 1) ss := by
  induction G with
  | nil => intro c s e ss _; rfl
  | cons g rest ih =>
      obtain ⟨j, L⟩ := g
      intro c s e ss hs
      rw [sliceGaps_cons, sliceGaps_cons]
      have hrec : sliceGaps rest (c + 1 + L) s e ss =
          sliceGaps rest (c + L) (s - 1) (e - 1) ss := by
        rw [show c + 1 + L = (c + L) + 1 by omega]
        exact ih (c + L) s e ss hs
      by_cases hc : max (j + (c + 1)) s < min (j + (c + 1) + L) e
      · rw [if_pos hc, if_pos (by omega), hrec,
          show min (j + (c + 1) + L) e - max (j + (c + 1)) s =
            min (j + c + L) (e - 1) - max (j + c) (s - 1) by omega]
      · rw [if_neg hc, if_neg (by omega), hrec]

theorem slice_shift0 (G : List (Nat × Nat)) :
    ∀ (c e : Nat),
      sliceGaps (G.map (fun g => (g.1 + 1, g.2))) c 0 e 0 =
        (sliceGaps G c 0 (e - 1) 0).map (fun g => (g.1 + 1, g.2)) := by
  induction G with
  | nil => intro c e; rfl
  | cons g rest ih =>
      obtain ⟨j, L⟩ := g
      intro c e
      simp only [List.map_cons]
      rw [sliceGaps_cons, sliceGaps_cons]
      by_cases hc : max (j + 1 + c) 0 < min (j + 1 + c + L) e
      · rw [if_pos hc, if_pos (by omega), List.map_cons, ih (c + L) e,
          show min (j + 1 + c + L) e - max (j + 1 + c) 0 =
            min (j + c + L) (e - 1) - max (j + c) 0 by omega]
        simp
      · rw [if_neg hc, if_neg (by omega)]
        exact ih (c + L) e

theorem slice_shift (G : List (Nat × Nat)) :
    ∀ (c s e ss : Nat), 1 ≤ s → 1 ≤ ss →
      sliceGaps (G.map (fun g => (g.1 + 1, g.2))) c s e ss =
        sliceGaps G c (s - 1) (e - 1) (ss - 1) := by
  induction G with
  | nil => intro c s e ss _ _; rfl
  | cons g rest ih =>
      obtain ⟨j, L⟩ := g
      intro c s e ss hs hss
      simp only [List.map_cons]
      rw [sliceGaps_cons, sliceGaps_cons]
      by_cases hc : max (j + 1 + c) s < min (j + 1 + c + L) e
      · rw [if_pos hc, if_pos (by omega), ih (c + L) s e ss hs hss,
          show j + 1 - ss = j - (ss - 1) by omega,
          show min (j + 1 + c + L) e - max (j + 1 + c) s =
            min (j + c + L) (e - 1) - max (j + c) (s - 1) by omega]
      · rw [if_neg hc, if_neg (by omega)]
        exact ih (c + L) s e ss hs hss

theorem slice_mem (G : List (Nat × Nat)) :
    ∀ (cum s e ss : Nat) (p : Nat × Nat), p ∈ sliceGaps G cum s e ss →
      ∃ g ∈ G, p.1 = g.1 - ss := by
  induction G with
  | nil => intro cum s e ss p h; simp [sliceGaps_nil] at h
  | cons g rest ih =>
      obtain ⟨j, L⟩ := g
      intro cum s e ss p hp
      rw [sliceGaps_cons] at hp
      by_cases hc : max (j + cum) s < min (j + cum + L) e
      · rw [if_pos hc] at hp
        rcases List.mem_cons.mp hp with h | h
        · exact ⟨(j, L), List.mem_cons_self _ _, by rw [h]⟩
        · obtain ⟨g, hg, he⟩ := ih (cum + L) s e ss p h
          exact ⟨g, List.mem_cons_of_mem _ hg, he⟩
      · rw [if_neg hc] at hp
        obtain ⟨g, hg, he⟩ := ih (cum + L) s e ss p hp
        exact ⟨g, List.mem_cons_of_mem _ hg, he⟩

theorem slice_merge0 (G : List (Nat × Nat)) (e : Nat) (he : 1 ≤ e)
    (hpw : G.Pairwise (fun g h => g.1 < h.1)) (hpos : ∀ g ∈ G, 0 < g.2) :
    sliceGaps (mergeGapAt 0 G) 0 0 e 0 = mergeGapAt 0 (sliceGaps G 0 0 (e - 1) 0) := by
  rcases G with _ | ⟨⟨j, L⟩, t⟩
  · have h1 : mergeGapAt 0 ([] : List (Nat × Nat)) = [(0, 1)] := rfl
    rw [sliceGaps_nil, h1, sliceGaps_cons, if_pos (by omega), sliceGaps_nil,
      show min (0 + 0 + 1) e - max (0 + 0) 0 = 1 by omega]
  · have hLpos : 0 < L := hpos (j, L) (List.mem_cons_self _ _)
    by_cases hj0 : j = 0
    · subst hj0
      rw [show mergeGapAt 0 ((0, L) :: t) = (0, L + 1) :: t from rfl]
      rw [sliceGaps_cons, sliceGaps_cons]
      have hrec : sliceGaps t (0 + (L + 1)) 0 e 0 = sliceGaps t (0 + L) 0 (e - 1) 0 := by
        rw [show 0 + (L + 1) = (0 + L) + 1 by omega]
        exact slice_cum0 t (0 + L) e 0
      by_cases he2 : 2 ≤ e
      · rw [if_pos (show max (0 + 0) 0 < min (0 + 0 + (L + 1)) e by omega),
          if_pos (show max (0 + 0) 0 < min (0 + 0 + L) (e - 1) by omega), hrec]
        rw [show mergeGapAt 0 ((0 - 0, min (0 + 0 + L) (e - 1) - max (0 + 0) 0) ::
            sliceGaps t (0 + L) 0 (e - 1) 0) =
          (0, (min (0 + 0 + L) (e - 1) - max (0 + 0) 0) + 1) ::
            sliceGaps t (0 + L) 0 (e - 1) 0 from rfl]
        rw [show min (0 + 0 + (L + 1)) e - max (0 + 0) 0 =
            (min (0 + 0 + L) (e - 1) - max (0 + 0) 0) + 1 by omega]
      · have he1 : e = 1 := by omega
        subst he1
        rw [if_pos (show max (0 + 0) 0 < min (0 + 0 + (L + 1)) 1 by omega),
          if_neg (show ¬ max (0 + 0) 0 < min (0 + 0 + L) (1 - 1) by omega), hrec]
        rw [slice_empty t (0 + L) 0 (1 - 1) 0 (by omega)]
        rw [show mergeGapAt 0 ([] : List (Nat × Nat)) = [(0, 1)] from rfl]
        rw [show min (0 + 0 + (L + 1)) 1 - max (0 + 0) 0 = 1 by omega]
    · have hm : mergeGapAt 0 ((j, L) :: t) = (0, 1) :: (j, L) :: t := by
        simp only [mergeGapAt, if_neg hj0]
      rw [hm, sliceGaps_cons, if_pos (by omega)]
      have hrec : sliceGaps ((j, L) :: t) (0 + 1) 0 e 0 =
          sliceGaps ((j, L) :: t) 0 0 (e - 1) 0 := slice_cum0 ((j, L) :: t) 0 e 0
      rw [hrec, show min (0 + 0 + 1) e - max (0 + 0) 0 = 1 by omega]
      rcases hi : sliceGaps ((j, L) :: t) 0 0 (e - 1) 0 with _ | ⟨⟨q1, q2⟩, qs⟩
      · simp [mergeGapAt]
      · have hq : 1 ≤ q1 := by
          obtain ⟨g, hg, hqe⟩ := slice_mem ((j, L) :: t) 0 0 (e - 1) 0 (q1, q2)
            (by rw [hi]; exact List.mem_cons_self _ _)
          have hg1 : 1 ≤ g.1 := by
            rcases List.mem_cons.mp hg with h | h
            · rw [h]; omega
            · rw [List.pairwise_cons] at hpw
              have := hpw.1 g h
              omega
          simp only at hqe
          omega
        have hm2 : mergeGapAt 0 ((q1, q2) :: qs) = (0, 1) :: (q1, q2) :: qs := by
          simp only [mergeGapAt, if_neg (by omega : ¬ q1 = 0)]
        rw [hm2]

theorem slice_merges (G : List (Nat × Nat)) (s e ss : Nat) (hs : 1 ≤ s) :
    sliceGaps (mergeGapAt 0 G) 0 s e ss = sliceGaps G 0 (s - 1) (e - 1) ss := by
  rcases G with _ | ⟨⟨j, L⟩, t⟩
  · have h1 : mergeGapAt 0 ([] : List (Nat × Nat)) = [(0, 1)] := rfl
    rw [h1, sliceGaps_cons, if_neg (by omega), sliceGaps_nil, sliceGaps_nil]
  · by_cases hj0 : j = 0
    · subst hj0
      rw [show mergeGapAt 0 ((0, L) :: t) = (0, L + 1) :: t from rfl]
      rw [sliceGaps_cons, sliceGaps_cons]
      have hrec : sliceGaps t (0 + (L + 1)) s e ss =
          sliceGaps t (0 + L) (s - 1) (e - 1) ss := by
        rw [show 0 + (L + 1) = (0 + L) + 1 by omega]
        exact slice_cums t (0 + L) s e ss hs
      by_cases hc : max (0 + 0) s < min (0 + 0 + (L + 1)) e
      · rw [if_pos hc, if_pos (by omega), hrec,
          show min (0 + 0 + (L + 1)) e - max (0 + 0) s =
            min (0 + 0 + L) (e - 1) - max (0 + 0) (s - 1) by omega]
      · rw [if_neg hc, if_neg (by omega), hrec]
    · have hm : mergeGapAt 0 ((j, L) :: t) = (0, 1) :: (j, L) :: t := by
        simp only [mergeGapAt, if_neg hj0]
      rw [hm, sliceGaps_cons, if_neg (by omega)]
      exact slice_cums ((j, L) :: t) 0 s e ss hs

theorem mergeGapAt_succ (n : Nat) (G : List (Nat × Nat)) :
    mergeGapAt (n + 1) (G.map (fun g => (g.1 + 1, g.2))) =
      (mergeGapAt n G).map (fun g => (g.1 + 1, g.2)) := by
  rcases G with _ | ⟨⟨j, K⟩, t⟩
  · rfl
  · simp only [List.map_cons, mergeGapAt]
    by_cases hj : j = n
    · rw [if_pos (by omega), if_pos hj]
      simp
    · rw [if_neg (by omega), if_neg hj]
      simp

theorem gapRuns_succ (m : List Bool) :
    ∀ (n : Nat), gapRuns m (n + 1) = (gapRuns m n).map (fun g => (g.1 + 1, g.2)) := by
  induction m with
  | nil => intro n; rfl
  | cons b rest ih =>
      intro n
      cases b with
      | true => rw [gapRuns_cons_true, gapRuns_cons_true, ih (n + 1)]
      | false => rw [gapRuns_cons_false, gapRuns_cons_false, ih n, mergeGapAt_succ]

theorem slice_gapRuns (m : List Bool) :
    ∀ (s e : Nat), s ≤ e → e ≤ m.length →
      sliceGaps (gapRuns m 0) 0 s e ((m.take s).count true) =
        gapRuns ((m.drop s).take (e - s)) 0 := by
  induction m with
  | nil =>
      intro s e hse he
      have he0 : e = 0 := by simpa using he
      have hs0 : s = 0 := by omega
      subst he0
      subst hs0
      rfl
  | cons b rest ih =>
      intro s e hse he
      have he' : e ≤ rest.length + 1 := by simpa using he
      cases b with
      | true =>
          rw [gapRuns_cons_true, gapRuns_succ rest 0]
          rcases Nat.eq_zero_or_pos s with hs0 | hs1
          · subst hs0
            simp only [List.take_zero, List.count_nil, List.drop_zero, Nat.sub_zero]
            rcases Nat.eq_zero_or_pos e with he0 | he1
            · subst he0
              rw [slice_empty _ _ _ _ _ (le_refl 0)]
              rfl
            · obtain ⟨e2, rfl⟩ : ∃ e2, e = e2 + 1 := ⟨e - 1, by omega⟩
              rw [slice_shift0 (gapRuns rest 0) 0 (e2 + 1)]
              simp only [Nat.add_sub_cancel]
              have hih := ih 0 e2 (by omega) (by omega)
              simp only [List.take_zero, List.count_nil, List.drop_zero,
                Nat.sub_zero] at hih
              rw [hih, List.take_succ_cons, gapRuns_cons_true, gapRuns_succ]
          · obtain ⟨s2, rfl⟩ : ∃ s2, s = s2 + 1 := ⟨s - 1, by omega⟩
            obtain ⟨e2, rfl⟩ : ∃ e2, e = e2 + 1 := ⟨e - 1, by omega⟩
            rw [List.take_succ_cons, count_true_cons_true]
            rw [slice_shift (gapRuns rest 0) 0 (s2 + 1) (e2 + 1) _ (by omega) (by omega)]
            simp only [Nat.add_sub_cancel]
            rw [ih s2 e2 (by omega) (by omega), List.drop_succ_cons,
              show e2 + 1 - (s2 + 1) = e2 - s2 by omega]
      | false =>
          rw [gapRuns_cons_false]
          rcases Nat.eq_zero_or_pos s with hs0 | hs1
          · subst hs0
            simp only [List.take_zero, List.count_nil, List.drop_zero, Nat.sub_zero]
            rcases Nat.eq_zero_or_pos e with he0 | he1
            · subst he0
              rw [slice_empty _ _ _ _ _ (le_refl 0)]
              rfl
            · obtain ⟨e2, rfl⟩ : ∃ e2, e = e2 + 1 := ⟨e - 1, by omega⟩
              rw [slice_merge0 (gapRuns rest 0) (e2 + 1) (by omega)
                (gapRuns_pairwise rest 0) (fun g hg => (gapRuns_mem rest 0 g hg).2.2)]
              simp only [Nat.add_sub_cancel]
              have hih := ih 0 e2 (by omega) (by omega)
              simp only [List.take_zero, List.count_nil, List.drop_zero,
                Nat.sub_zero] at hih
              rw [hih, List.take_succ_cons, gapRuns_cons_false]
          · obtain ⟨s2, rfl⟩ : ∃ s2, s = s2 + 1 := ⟨s - 1, by omega⟩
            obtain ⟨e2, rfl⟩ : ∃ e2, e = e2 + 1 := ⟨e - 1, by omega⟩
            rw [List.take_succ_cons, count_true_cons_false]
            rw [slice_merges (gapRuns rest 0) (s2 + 1) (e2 + 1) _ (by omega)]
            simp only [Nat.add_sub_cancel]
            rw [ih s2 e2 (by omega) (by omega), List.drop_succ_cons,
              show e2 + 1 - (s2 + 1) = e2 - s2 by omega]

/-! ### Nearest-residue lookup and construction-from-string facts -/

theorem nextNonGapGo_some (l : List Bool) :
    ∀ (p q : Nat), nextNonGapGo l p = some q →
      p ≤ q ∧ (l.take (q - p)).count true = 0 := by
  induction l with
  | nil => intro p q h; simp [nextNonGapGo] at h
  | cons b rest ih =>
      intro p q h
      cases b with
      | true =>
          simp only [nextNonGapGo, Option.some.injEq] at h
          subst h
          simp
      | false =>
          simp only [nextNonGapGo] at h
          obtain ⟨h1, h3⟩ := ih (p + 1) q h
          refine ⟨by omega, ?_⟩
          rw [show q - p = (q - (p + 1)) + 1 by omega, List.take_succ_cons]
          simpa using h3

theorem nextNonGapGo_none (l : List Bool) :
    ∀ (p : Nat), nextNonGapGo l p = none → l.count true = 0 := by
  induction l with
  | nil => intro p _; rfl
  | cons b rest ih =>
      intro p h
      cases b with
      | true => simp [nextNonGapGo] at h
      | false =>
          simp only [nextNonGapGo] at h
          rw [count_true_cons_false]
          exact ih (p + 1) h

theorem seqMask_cons (c : Char) (rest : List Char) :
    seqMask (c :: rest) = decide (c ≠ '-') :: seqMask rest := rfl

theorem filter_length_eq_mask_count (data : List Char) :
    (data.filter (fun c => decide (c ≠ '-'))).length = (seqMask data).count true := by
  induction data with
  | nil => rfl
  | cons c rest ih =>
      rw [seqMask_cons, List.filter_cons]
      by_cases hc : c = '-'
      · subst hc
        rw [if_neg (by simp), show decide (('-' : Char) ≠ '-') = false by simp,
          count_true_cons_false]
        exact ih
      · rw [if_pos (by simp [hc]), show decide (c ≠ '-') = true by simp [hc],
          count_true_cons_true, List.length_cons, ih]

theorem fromGapped_gaps (data : List Char) :
    (GapPositions.fromGapped data).gaps = gapRuns (seqMask data) 0 := rfl

theorem fromGapped_seq_length (data : List Char) :
    (GapPositions.fromGapped data).seq_length =
      (data.filter (fun c => decide (c ≠ '-'))).length := rfl

theorem fromGapped_len (data : List Char) :
    (GapPositions.fromGapped data).len = data.length := by
  unfold GapPositions.len
  rw [fromGapped_gaps, fromGapped_seq_length, gapRuns_gapSum, filter_length_eq_mask_count]
  have h1 := count_true_add_count_false (seqMask data)
  have h2 : (seqMask data).length = data.length := by simp [seqMask]
  omega

theorem getitem_nat (gp : GapPositions) (s e : Nat) (hse : s ≤ e) (he : e ≤ gp.len) :
    gp.getitem ⟨some (s : Int), some (e : Int), none⟩ = .ok (sliceCore gp s e) := by
  simp only [GapPositions.getitem, Option.getD_some, Int.toNat_natCast]
  rw [if_neg (by simp),
    if_neg (show ¬((s : Int) < 0) from not_lt.mpr (Int.natCast_nonneg _)),
    if_neg (show ¬((e : Int) < 0) from not_lt.mpr (Int.natCast_nonneg _)),
    show min e gp.len = e by omega, if_neg (show ¬ e < s by omega)]

/-! ### The claims -/

/-- C1: for every GapPositions `gp` (satisfying the spec's invariants) and
every integer `i` with `0 ≤ i ≤ seq_length`, converting a sequence index to
an alignment index and back is the identity:
`gp.from_align_to_seq_index (gp.from_seq_to_align_index i) == i`. -/
theorem seq_to_align_to_seq_roundtrip (gp : GapPositions) (hw : gp.Wf) (i : Nat)
    (hi : i ≤ gp.seq_length) :
    gp.from_align_to_seq_index (gp.from_seq_to_align_index i : Int) = .ok i := by
  unfold GapPositions.from_align_to_seq_index
  rw [if_neg (not_lt.mpr (Int.natCast_nonneg _)), Int.toNat_natCast]
  unfold GapPositions.from_seq_to_align_index
  have hw' : WfFrom gp.gaps 0 gp.seq_length := hw
  have hfil : gapSum (gp.gaps.filter (fun g => g.1 ≤ i)) ≤ gapSum gp.gaps :=
    gapSum_filter_le _ _
  have h5 := a2sGo_decode gp.gaps 0 gp.seq_length 0
    (i + gapSum (gp.gaps.filter (fun g => g.1 ≤ i))) hw' (by omega) (by omega)
  have h6 := count_take_s2a gp.gaps 0 gp.seq_length i hw' (by omega) hi
  simp only [Nat.sub_zero] at h5 h6
  rw [h5, h6, Nat.zero_add]

/-- Witness for the round-trip theorem at a concrete GapPositions. -/
theorem seq_to_align_to_seq_roundtrip_witness :
    (GapPositions.mk [(0, 2), (3, 1)] 5).Wf ∧
    3 ≤ (GapPositions.mk [(0, 2), (3, 1)] 5).seq_length ∧
    (GapPositions.mk [(0, 2), (3, 1)] 5).from_align_to_seq_index
      ((GapPositions.mk [(0, 2), (3, 1)] 5).from_seq_to_align_index 3 : Int) = .ok 3 :=
  ⟨by decide, by decide,
    seq_to_align_to_seq_roundtrip (GapPositions.mk [(0, 2), (3, 1)] 5) (by decide) 3
      (by decide)⟩

/-- C2: for every GapPositions `gp` (satisfying the spec's invariants) and
every alignment index `a` whose column is a gap,
`gp.from_align_to_seq_index a` returns the seq-index of the nearest non-gap
residue at alignment position `≥ a`, and returns `seq_length` when no such
residue exists. -/
theorem align_to_seq_on_gap_column (gp : GapPositions) (hw : gp.Wf) (a : Nat)
    (ha : a < gp.len) (hgap : gp.cols.getD a true = false) :
    gp.from_align_to_seq_index (a : Int) =
      .ok ((nextNonGap gp.cols a).elim gp.seq_length (fun p => residueIndexAt gp.cols p)) := by
  unfold GapPositions.from_align_to_seq_index
  rw [if_neg (not_lt.mpr (Int.natCast_nonneg _)), Int.toNat_natCast]
  have hw' : WfFrom gp.gaps 0 gp.seq_length := hw
  have hlen : gp.len = gp.seq_length + gapSum gp.gaps := rfl
  have h5 := a2sGo_decode gp.gaps 0 gp.seq_length 0 a hw' (by omega) (by omega)
  simp only [Nat.sub_zero, Nat.zero_add] at h5
  rw [h5]
  rcases hn : nextNonGap gp.cols a with _ | p
  · simp only [Option.elim]
    simp only [nextNonGap] at hn
    have hz := nextNonGapGo_none (gp.cols.drop a) a hn
    have hcnt : gp.cols.count true = gp.seq_length := by
      have := decode_count gp.gaps 0 gp.seq_length hw' (by omega)
      simpa [GapPositions.cols] using this
    have hsplit : gp.cols.count true =
        (gp.cols.take a).count true + (gp.cols.drop a).count true := by
      rw [← List.count_append, List.take_append_drop]
    have : (gp.cols.take a).count true = gp.seq_length := by omega
    rw [GapPositions.cols] at this
    rw [this]
  · simp only [Option.elim]
    simp only [nextNonGap] at hn
    obtain ⟨hpq, hcnt0⟩ := nextNonGapGo_some (gp.cols.drop a) a p hn
    unfold residueIndexAt
    have htake : gp.cols.take p = gp.cols.take a ++ (gp.cols.drop a).take (p - a) := by
      rw [show p = a + (p - a) by omega, List.take_add]
      rw [show a + (p - a) - a = p - a by omega]
    rw [htake, List.count_append, hcnt0, Nat.add_zero]
    rw [GapPositions.cols]

/-- Witness for the gap-column theorem at a concrete GapPositions. -/
theorem align_to_seq_on_gap_column_witness :
    (GapPositions.mk [(2, 2), (5, 1)] 7).Wf ∧
    3 < (GapPositions.mk [(2, 2), (5, 1)] 7).len ∧
    (GapPositions.mk [(2, 2), (5, 1)] 7).cols.getD 3 true = false ∧
    (GapPositions.mk [(2, 2), (5, 1)] 7).from_align_to_seq_index (3 : Int) =
      .ok ((nextNonGap (GapPositions.mk [(2, 2), (5, 1)] 7).cols 3).elim
        (GapPositions.mk [(2, 2), (5, 1)] 7).seq_length
        (fun p => residueIndexAt (GapPositions.mk [(2, 2), (5, 1)] 7).cols p)) :=
  ⟨by decide, by decide, by decide,
    align_to_seq_on_gap_column (GapPositions.mk [(2, 2), (5, 1)] 7) (by decide) 3
      (by decide) (by decide)⟩

/-- C3: for every gapped string `data` and slice bounds
`0 ≤ s ≤ e ≤ aligned_length`, slicing commutes with construction: the
GapPositions produced by `gp[s:e]` equals the GapPositions constructed
directly from the sliced string `data[s:e]`, in both its gaps array and its
seq_length. -/
theorem slice_commutes_with_construction (data : List Char) (s e : Nat) (hse : s ≤ e)
    (he : e ≤ (GapPositions.fromGapped data).len) :
    (GapPositions.fromGapped data).getitem ⟨some (s : Int), some (e : Int), none⟩ =
      .ok (GapPositions.fromGapped ((data.drop s).take (e - s))) := by
  have hlen := fromGapped_len data
  rw [getitem_nat _ s e hse he]
  have hmasklen : (seqMask data).length = data.length := by simp [seqMask]
  have hmask_s : s ≤ (seqMask data).length := by omega
  have hmask_e : e ≤ (seqMask data).length := by omega
  have has : a2sGo (GapPositions.fromGapped data).gaps 0 s =
      ((seqMask data).take s).count true := by
    rw [fromGapped_gaps]
    exact a2s_gapRuns (seqMask data) s hmask_s
  have hae : a2sGo (GapPositions.fromGapped data).gaps 0 e =
      ((seqMask data).take e).count true := by
    rw [fromGapped_gaps]
    exact a2s_gapRuns (seqMask data) e hmask_e
  have hmaskslice : seqMask ((data.drop s).take (e - s)) =
      ((seqMask data).drop s).take (e - s) := by
    simp [seqMask, List.map_take, List.map_drop]
  have hsplit : ∀ (m : List Bool) (x y : Nat), (m.take (x + y)).count true =
      (m.take x).count true + ((m.drop x).take y).count true := by
    intro m x y
    rw [List.take_add, List.count_append]
  have hsp := hsplit (seqMask data) s (e - s)
  rw [show s + (e - s) = e by omega] at hsp
  have hgapsEq : sliceGaps (GapPositions.fromGapped data).gaps 0 s e
      (a2sGo (GapPositions.fromGapped data).gaps 0 s) =
      (GapPositions.fromGapped ((data.drop s).take (e - s))).gaps := by
    rw [has, fromGapped_gaps, fromGapped_gaps, hmaskslice]
    exact slice_gapRuns (seqMask data) s e hse hmask_e
  have hseqEq : a2sGo (GapPositions.fromGapped data).gaps 0 e -
      a2sGo (GapPositions.fromGapped data).gaps 0 s =
      (GapPositions.fromGapped ((data.drop s).take (e - s))).seq_length := by
    rw [has, hae, fromGapped_seq_length, filter_length_eq_mask_count, hmaskslice]
    omega
  rw [show sliceCore (GapPositions.fromGapped data) s e =
      GapPositions.mk (sliceGaps (GapPositions.fromGapped data).gaps 0 s e
        (a2sGo (GapPositions.fromGapped data).gaps 0 s))
        (a2sGo (GapPositions.fromGapped data).gaps 0 e -
          a2sGo (GapPositions.fromGapped data).gaps 0 s) from rfl]
  rw [hgapsEq, hseqEq]

/-- Witness for the slice-commutation theorem at a concrete string. -/
theorem slice_commutes_with_construction_witness :
    1 ≤ 9 ∧
    9 ≤ (GapPositions.fromGapped
      ['A', 'C', '-', '-', 'G', 'T', 'A', '-', 'T', 'G']).len ∧
    (GapPositions.fromGapped
        ['A', 'C', '-', '-', 'G', 'T', 'A', '-', 'T', 'G']).getitem
        ⟨some (1 : Int), some (9 : Int), none⟩ =
      .ok (GapPositions.fromGapped
        ((['A', 'C', '-', '-', 'G', 'T', 'A', '-', 'T', 'G'].drop 1).take (9 - 1))) :=
  ⟨by decide, by decide,
    slice_commutes_with_construction
      ['A', 'C', '-', '-', 'G', 'T', 'A', '-', 'T', 'G'] 1 9 (by decide) (by decide)⟩

/-- C4: `get_records_matching(species, seqid, start, stop)` returns exactly
the stored records whose species and seqid equal the provided values and
whose half-open `[start, stop)` interval overlaps the query window: a record
matches iff `record.stop > start` and `record.start < stop`, an omitted
start acting as `-∞` and an omitted stop as `+∞`. -/
theorem get_records_matching_overlap (db : AlignDb) (sp sq : String)
    (start stop : Option Int) :
    ∃ l, db.get_records_matching (some sp) (some sq) start stop = .ok l ∧
      ∀ r, r ∈ l ↔ r ∈ db.records ∧ r.species = sp ∧ r.seqid = sq ∧
        (∀ a, start = some a → a < r.stop) ∧ (∀ b, stop = some b → r.start < b) := by
  refine ⟨db.records.filter (fun r => matchesKey r (some sp) (some sq) &&
    overlapsQuery r start stop), ?_, ?_⟩
  · unfold AlignDb.get_records_matching
    rw [if_neg (by simp)]
  · intro r
    rw [List.mem_filter]
    rcases start with _ | a <;> rcases stop with _ | b <;>
      simp [matchesKey, overlapsQuery, and_assoc]

/-- C5: `get_alignment` yields the same Alignment regardless of the
orientation in which the mouse genome stores its sequence: with the s2
sequence stored reverse-complemented and its AlignRecord carrying strand
`-`, the query on the plus-strand human reference window `[3, 9)` yields
the same result as with plus-orientation storage, namely the original
alignment sliced to columns `[3, 9)`. -/
theorem get_alignment_strand_invariant :
    get_alignment sampleDbMinus sampleGenomesMinus "human" "s1" (some 3) (some 9) =
      get_alignment sampleDbPlus sampleGenomesPlus "human" "s1" (some 3) (some 9) ∧
    get_alignment sampleDbMinus sampleGenomesMinus "human" "s1" (some 3) (some 9) =
      .ok [[("s1", sliceRow s1row 3 9), ("s2", sliceRow s2row 3 9),
            ("s3", sliceRow s3row 3 9)]] := by
  constructor <;> rfl

/-- C6: AlignDb round-trip: every record inserted via `add_records` is
returned by `get_records_matching` on its species and seqid, with every
field equal to the inserted values. -/
theorem add_records_roundtrip (db : AlignDb) (records : List AlignRecord)
    (r : AlignRecord) (hr : r ∈ records) :
    ∃ l, (db.add_records records).get_records_matching (some r.species) (some r.seqid)
        none none = .ok l ∧
      ∃ g, g ∈ l ∧ g.source = r.source ∧ g.block_id = r.block_id ∧
        g.species = r.species ∧ g.seqid = r.seqid ∧ g.start = r.start ∧
        g.stop = r.stop ∧ g.strand = r.strand ∧ g.gap_spans = r.gap_spans := by
  refine ⟨(db.add_records records).records.filter (fun x =>
      matchesKey x (some r.species) (some r.seqid) && overlapsQuery x none none),
    ?_, r, ?_, rfl, rfl, rfl, rfl, rfl, rfl, rfl, rfl⟩
  · unfold AlignDb.get_records_matching
    rw [if_neg (by simp)]
  · rw [List.mem_filter]
    constructor
    · unfold AlignDb.add_records
      simp [hr]
    · simp [matchesKey, overlapsQuery]

/-- Witness for the AlignDb round-trip at a concrete record. -/
theorem add_records_roundtrip_witness :
    (AlignRecord.mk "blah" "0" "human" "s1" 1 5 '+' []) ∈
      [AlignRecord.mk "blah" "0" "human" "s1" 1 5 '+' []] ∧
    ∃ l, ((AlignDb.mk []).add_records
        [AlignRecord.mk "blah" "0" "human" "s1" 1 5 '+' []]).get_records_matching
        (some "human") (some "s1") none none = .ok l ∧
      ∃ g, g ∈ l ∧ g.source = "blah" ∧ g.block_id = "0" ∧ g.species = "human" ∧
        g.seqid = "s1" ∧ g.start = 1 ∧ g.stop = 5 ∧ g.strand = '+' ∧ g.gap_spans = [] :=
  ⟨List.mem_singleton.mpr rfl,
    add_records_roundtrip (AlignDb.mk []) [AlignRecord.mk "blah" "0" "human" "s1" 1 5 '+' []]
      (AlignRecord.mk "blah" "0" "human" "s1" 1 5 '+' []) (List.mem_singleton.mpr rfl)⟩

/-- C7: for every genomes mapping that does not contain `ref_species`,
`get_alignment` fails with a `ValueError` (the UnknownSpecies failure) and
yields no Alignment. -/
theorem get_alignment_unknown_species (db : AlignDb) (genomes : List (String × Genome))
    (ref_species seqid : String) (rs re : Option Int)
    (h : ∀ g ∈ genomes, g.1 ≠ ref_species) :
    get_alignment db genomes ref_species seqid rs re = .error .valueError := by
  unfold get_alignment
  rw [if_pos (List.find?_eq_none.mpr (fun x hx => by
    simp only [decide_eq_true_eq]
    exact h x hx))]

/-- Witness: the sample genomes do not contain the species dodo. -/
theorem get_alignment_unknown_species_witness :
    (∀ g ∈ sampleGenomesPlus, g.1 ≠ "dodo") ∧
    get_alignment sampleDbPlus sampleGenomesPlus "dodo" "s2" none none =
      .error .valueError :=
  ⟨by decide, get_alignment_unknown_species sampleDbPlus sampleGenomesPlus "dodo" "s2"
    none none (by decide)⟩

/-- C8: GapPositions rejects unsupported accesses with `NotImplemented`:
`from_align_to_seq_index a` fails for every `a < 0`, and slicing fails for
every slice with a non-unit (hence also negative) step, a negative start or
stop, or stop before start. -/
theorem gap_positions_unsupported (gp : GapPositions) (a : Int) (sl : PySlice) :
    (a < 0 → gp.from_align_to_seq_index a = .error .notImplemented) ∧
    ((∃ st, sl.step = some st ∧ st ≠ 1) → gp.getitem sl = .error .notImplemented) ∧
    ((∃ v, sl.start = some v ∧ v < 0) → gp.getitem sl = .error .notImplemented) ∧
    ((∃ v, sl.stop = some v ∧ v < 0) → gp.getitem sl = .error .notImplemented) ∧
    ((∃ u v, sl.start = some u ∧ sl.stop = some v ∧ v < u) →
      gp.getitem sl = .error .notImplemented) := by
  obtain ⟨s0, e0, st0⟩ := sl
  refine ⟨?_, ?_, ?_, ?_, ?_⟩
  · intro ha
    unfold GapPositions.from_align_to_seq_index
    rw [if_pos ha]
  · rintro ⟨st, hst, hne⟩
    simp only at hst
    subst hst
    unfold GapPositions.getitem
    rw [if_pos ⟨by simp, by simp [hne]⟩]
  · rintro ⟨v, hv, hneg⟩
    simp only at hv
    subst hv
    simp only [GapPositions.getitem, Option.getD_some]
    by_cases h1 : st0 ≠ none ∧ st0 ≠ some 1
    · rw [if_pos h1]
    · rw [if_neg h1, if_pos hneg]
  · rintro ⟨v, hv, hneg⟩
    simp only at hv
    subst hv
    simp only [GapPositions.getitem, Option.getD_some]
    by_cases h1 : st0 ≠ none ∧ st0 ≠ some 1
    · rw [if_pos h1]
    · rw [if_neg h1]
      by_cases h2 : s0.getD 0 < 0
      · rw [if_pos h2]
      · rw [if_neg h2, if_pos hneg]
  · rintro ⟨u, v, hu, hv, hlt⟩
    simp only at hu hv
    subst hu
    subst hv
    simp only [GapPositions.getitem, Option.getD_some]
    by_cases h1 : st0 ≠ none ∧ st0 ≠ some 1
    · rw [if_pos h1]
    · rw [if_neg h1]
      by_cases h2 : u < 0
      · rw [if_pos h2]
      · rw [if_neg h2]
        by_cases h3 : v < 0
        · rw [if_pos h3]
        · rw [if_neg h3, if_pos (show min v.toNat gp.len < u.toNat by omega)]

/-- Witness for the unsupported-access theorem at concrete inputs. -/
theorem gap_positions_unsupported_witness :
    (GapPositions.mk [(1, 3)] 20).from_align_to_seq_index (-1) = .error .notImplemented ∧
    (GapPositions.mk [(1, 3)] 20).getitem ⟨none, none, some (-1)⟩ =
      .error .notImplemented ∧
    (GapPositions.mk [(1, 3)] 20).getitem ⟨some (-1), none, none⟩ =
      .error .notImplemented ∧
    (GapPositions.mk [(1, 3)] 20).getitem ⟨none, some (-1), none⟩ =
      .error .notImplemented ∧
    (GapPositions.mk [(1, 3)] 20).getitem ⟨some 5, some 2, none⟩ =
      .error .notImplemented :=
  ⟨(gap_positions_unsupported (GapPositions.mk [(1, 3)] 20) (-1)
      ⟨none, none, some (-1)⟩).1 (by decide),
   (gap_positions_unsupported (GapPositions.mk [(1, 3)] 20) 0
      ⟨none, none, some (-1)⟩).2.1 ⟨-1, rfl, by decide⟩,
   (gap_positions_unsupported (GapPositions.mk [(1, 3)] 20) 0
      ⟨some (-1), none, none⟩).2.2.1 ⟨-1, rfl, by decide⟩,
   (gap_positions_unsupported (GapPositions.mk [(1, 3)] 20) 0
      ⟨none, some (-1), none⟩).2.2.2.1 ⟨-1, rfl, by decide⟩,
   (gap_positions_unsupported (GapPositions.mk [(1, 3)] 20) 0
      ⟨some 5, some 2, none⟩).2.2.2.2 ⟨5, 2, rfl, rfl, by decide⟩⟩

/-- C9: slicing a GapPositions is a pure operation returning a new
instance: on the explicit heap of instances, evaluating `gp[sl]` on the
instance at index `i` leaves that entry (its gaps array and seq_length)
unchanged and allocates the result at a fresh index distinct from `i`. -/
theorem slice_preserves_original (heap : List GapPositions) (i : Nat) (sl : PySlice)
    (gp gpNew : GapPositions) (hget : heap.get? i = some gp)
    (hok : gp.getitem sl = .ok gpNew) :
    (sliceOnHeap heap i sl).1.get? i = some gp ∧
    (sliceOnHeap heap i sl).2 = .ok heap.length ∧ i ≠ heap.length ∧
    (sliceOnHeap heap i sl).1.get? heap.length = some gpNew := by
  have hil : i < heap.length := by
    rcases List.get?_eq_some.mp hget with ⟨h, _⟩
    exact h
  have hrun : sliceOnHeap heap i sl = (heap ++ [gpNew], .ok heap.length) := by
    simp only [sliceOnHeap, hget, hok]
  rw [hrun]
  refine ⟨?_, rfl, by omega, ?_⟩
  · rw [List.get?_append hil]
    exact hget
  · exact List.get?_concat_length heap gpNew

/-- Witness for the heap-purity theorem at a concrete heap. -/
theorem slice_preserves_original_witness :
    [GapPositions.mk [(1, 3)] 4].get? 0 = some (GapPositions.mk [(1, 3)] 4) ∧
    (GapPositions.mk [(1, 3)] 4).getitem ⟨some 0, some 2, none⟩ =
      .ok (GapPositions.mk [(1, 1)] 1) ∧
    ((sliceOnHeap [GapPositions.mk [(1, 3)] 4] 0 ⟨some 0, some 2, none⟩).1.get? 0 =
        some (GapPositions.mk [(1, 3)] 4) ∧
      (sliceOnHeap [GapPositions.mk [(1, 3)] 4] 0 ⟨some 0, some 2, none⟩).2 = .ok 1 ∧
      (0 : Nat) ≠ 1 ∧
      (sliceOnHeap [GapPositions.mk [(1, 3)] 4] 0 ⟨some 0, some 2, none⟩).1.get? 1 =
        some (GapPositions.mk [(1, 1)] 1)) := by
  have h := slice_preserves_original [GapPositions.mk [(1, 3)] 4] 0 ⟨some 0, some 2, none⟩
    (GapPositions.mk [(1, 3)] 4) (GapPositions.mk [(1, 1)] 1) rfl rfl
  exact ⟨rfl, rfl, h.1, h.2.1, h.2.2.1, h.2.2.2⟩

/-- C10: for every string argument `name`, `valid_seq_file name` in
`ensembl_cli.download` raises a `NameError` rather than returning a
boolean, because the name `_valid_seq` it applies is never bound in the
module. -/
theorem valid_seq_file_name_error (name : String) :
    valid_seq_file name = .error .nameError := by
  unfold valid_seq_file resolveGlobal
  rw [if_neg (by decide)]
  rfl

end EnsemblLite
